import Mathlib

/-!
Verification of the AlphaFold3 embedding and loss modules of this repository
(`src/models/embedders.py` and `src/utils/loss.py`).

Modelling conventions: tensors are total functions out of `Fin`-indexed axes.
Machine floats are modelled exactly — rational arithmetic (`ℚ`) for the
computable tensor pipelines, real arithmetic (`ℝ`) for the losses built from
`exp`, `log` and `sqrt`, and an explicit `PFloat` type carrying the IEEE
special values NaN and ±Inf at the two places where the code either branches
on them (`torch.isnan` / `torch.isinf` in the loss aggregator) or can create
them (`torch.div` by a zero template count).
-/

namespace AF3

/-- Scalar float value that is finite, NaN, or ±Inf; the cases tested by
`torch.isnan` / `torch.isinf` in `AlphaFold3Loss._aggregate_losses` and
produced by `torch.div` on a zero denominator. -/
inductive PFloat where
  | val (q : ℚ)
  | nan
  | inf
  | ninf
deriving DecidableEq

/-- `torch.isnan` on a scalar. -/
def PFloat.isnan : PFloat → Bool
  | .nan => true
  | _ => false

/-- `torch.isinf` on a scalar (true for both +Inf and -Inf). -/
def PFloat.isinf : PFloat → Bool
  | .inf => true
  | .ninf => true
  | _ => false

/-- A float that is neither NaN nor ±Inf. -/
def PFloat.isFinite : PFloat → Bool
  | .val _ => true
  | _ => false

/-- The rational carried by a finite float (0 for the special values). -/
def PFloat.toQ : PFloat → ℚ
  | .val q => q
  | _ => 0

/-- IEEE addition on `PFloat`. -/
def PFloat.add : PFloat → PFloat → PFloat
  | .nan, _ => .nan
  | _, .nan => .nan
  | .val a, .val b => .val (a + b)
  | .inf, .ninf => .nan
  | .ninf, .inf => .nan
  | .inf, _ => .inf
  | _, .inf => .inf
  | .ninf, _ => .ninf
  | _, .ninf => .ninf

/-- IEEE multiplication on `PFloat`. -/
def PFloat.mul : PFloat → PFloat → PFloat
  | .nan, _ => .nan
  | _, .nan => .nan
  | .val a, .val b => .val (a * b)
  | .inf, .val b => if b = 0 then .nan else if 0 < b then .inf else .ninf
  | .val a, .inf => if a = 0 then .nan else if 0 < a then .inf else .ninf
  | .ninf, .val b => if b = 0 then .nan else if 0 < b then .ninf else .inf
  | .val a, .ninf => if a = 0 then .nan else if 0 < a then .ninf else .inf
  | .inf, .inf => .inf
  | .inf, .ninf => .ninf
  | .ninf, .inf => .ninf
  | .ninf, .ninf => .inf

/-- IEEE division on `PFloat`; in particular `0 / 0 = NaN` and
`x / 0 = ±Inf` for finite nonzero `x`, as `torch.div` behaves. -/
def PFloat.div : PFloat → PFloat → PFloat
  | .nan, _ => .nan
  | _, .nan => .nan
  | .val a, .val b =>
      if b = 0 then (if a = 0 then .nan else if 0 < a then .inf else .ninf)
      else .val (a / b)
  | .inf, .val b => if 0 ≤ b then .inf else .ninf
  | .ninf, .val b => if 0 ≤ b then .ninf else .inf
  | .val _, .inf => .val 0
  | .val _, .ninf => .val 0
  | .inf, .inf => .nan
  | .inf, .ninf => .nan
  | .ninf, .inf => .nan
  | .ninf, .ninf => .nan

/-! ## Loss aggregation (`AlphaFold3Loss._aggregate_losses`, loss.py lines 287-303)

The losses dictionary is modelled as an association list over an arbitrary
name type `α`; the configuration is the map from a term name to its weight.
The loop body replaces a NaN or ±Inf term by zero, records a warning naming
the term, and accumulates `weight * loss`. -/

/-- One iteration of the `for loss_name, loss in losses.items()` loop
(loss.py lines 290-299). The accumulator carries the running cumulative loss
and the names warned about so far. -/
def aggregateStep {α : Type} (config : α → ℚ) (acc : PFloat × List α) (p : α × PFloat) :
    PFloat × List α :=
  let substituted := if p.2.isnan || p.2.isinf then PFloat.val 0 else p.2
  let warnings := if p.2.isnan || p.2.isinf then acc.2 ++ [p.1] else acc.2
  (acc.1.add ((PFloat.val (config p.1)).mul substituted), warnings)

/-- `AlphaFold3Loss._aggregate_losses` (loss.py lines 287-303): fold of the
weighted accumulation loop from `cumulative_loss = 0.0`, returning the
cumulative loss together with the list of warned term names. -/
def aggregate_losses {α : Type} (config : α → ℚ) (losses : List (α × PFloat)) :
    PFloat × List α :=
  losses.foldl (aggregateStep config) (PFloat.val 0, [])

/-- Sum of `weight * term` over an association list of finite loss terms. -/
def weightedSum {α : Type} (config : α → ℚ) (losses : List (α × PFloat)) : ℚ :=
  (losses.map (fun p => config p.1 * p.2.toQ)).sum

lemma weightedSum_append {α : Type} (config : α → ℚ) (l₁ l₂ : List (α × PFloat)) :
    weightedSum config (l₁ ++ l₂) = weightedSum config l₁ + weightedSum config l₂ := by
  unfold weightedSum
  rw [List.map_append, List.sum_append]

lemma aggregate_foldl_finite {α : Type} (config : α → ℚ) (l : List (α × PFloat))
    (hfin : ∀ p ∈ l, p.2.isFinite = true) (c : ℚ) (ws : List α) :
    l.foldl (aggregateStep config) (PFloat.val c, ws) =
      (PFloat.val (c + weightedSum config l), ws) := by
  induction l generalizing c ws with
  | nil => simp [weightedSum]
  | cons p l ih =>
    obtain ⟨q, hq⟩ : ∃ q, p.2 = .val q := by
      have hp := hfin p (by simp)
      cases h : p.2 <;> simp [h, PFloat.isFinite] at hp ⊢
    rw [List.foldl_cons]
    have hstep : aggregateStep config (PFloat.val c, ws) p = (PFloat.val (c + config p.1 * q), ws) := by
      unfold aggregateStep
      rw [hq]
      simp [PFloat.isnan, PFloat.isinf, PFloat.mul, PFloat.add]
    rw [hstep, ih (fun r hr => hfin r (by simp [hr]))]
    have : c + config p.1 * q + weightedSum config l = c + weightedSum config (p :: l) := by
      unfold weightedSum
      rw [List.map_cons, List.sum_cons, hq]
      unfold PFloat.toQ
      ring
    rw [this]

/-- C1: if exactly one term of the losses mapping passed to
`AlphaFold3Loss._aggregate_losses` is NaN or ±Inf and all other terms are
finite, the returned cumulative loss is exactly the sum of `weight * term`
over the finite terms (the degenerate term contributes 0), and the warning
list names exactly the offending term.  The aggregation function is total,
so the call never raises. -/
theorem c1_aggregate_skips_single_degenerate_term {α : Type} (config : α → ℚ)
    (pre post : List (α × PFloat)) (nm : α) (bad : PFloat)
    (hpre : ∀ p ∈ pre, p.2.isFinite = true) (hpost : ∀ p ∈ post, p.2.isFinite = true)
    (hbad : bad.isnan = true ∨ bad.isinf = true) :
    aggregate_losses config (pre ++ (nm, bad) :: post) =
      (PFloat.val (weightedSum config (pre ++ post)), [nm]) := by
  unfold aggregate_losses
  rw [List.foldl_append, aggregate_foldl_finite config pre hpre, List.foldl_cons]
  have hsub : (if bad.isnan || bad.isinf then PFloat.val 0 else bad) = PFloat.val 0 := by
    rcases hbad with h | h <;> simp [h]
  have hwarn : (bad.isnan || bad.isinf) = true := by
    rcases hbad with h | h <;> simp [h]
  have hstep : aggregateStep config (PFloat.val (0 + weightedSum config pre), []) (nm, bad) =
      (PFloat.val (0 + weightedSum config pre + config nm * 0), [nm]) := by
    unfold aggregateStep
    rw [hsub, hwarn]
    simp [PFloat.mul, PFloat.add]
  rw [hstep, aggregate_foldl_finite config post hpost]
  rw [weightedSum_append]
  norm_num

/-- Names of the loss terms assembled by `AlphaFold3Loss._compute_losses`. -/
inductive LossName where
  | distogram
  | smooth_lddt
  | mse
deriving DecidableEq

/-- Concrete weight configuration used by the C1 witness. -/
def cfgW : LossName → ℚ := fun _ => 2

theorem c1_witness :
    aggregate_losses cfgW
        [(LossName.distogram, PFloat.val 5), (LossName.smooth_lddt, PFloat.nan),
          (LossName.mse, PFloat.val 7)] =
      (PFloat.val 24, [LossName.smooth_lddt]) := by
  have h := c1_aggregate_skips_single_degenerate_term cfgW
      [(LossName.distogram, PFloat.val 5)] [(LossName.mse, PFloat.val 7)]
      LossName.smooth_lddt PFloat.nan
      (by intro p hp; rw [List.mem_singleton] at hp; subst hp; rfl)
      (by intro p hp; rw [List.mem_singleton] at hp; subst hp; rfl)
      (Or.inl rfl)
  have hsum : weightedSum cfgW
      ([(LossName.distogram, PFloat.val 5)] ++ [(LossName.mse, PFloat.val 7)]) = 24 := by
    unfold weightedSum cfgW PFloat.toQ
    norm_num
  rw [hsum] at h
  exact h

/-! ## Distogram binning (`dgram_from_positions`, embedders.py lines 239-254) -/

/-- Squared Euclidean distance between two 3-D points,
`torch.sum((pos[..., None, :] - pos[..., None, :, :]) ** 2, dim=-1)`. -/
def sqdQ {n : ℕ} (pos : Fin n → Fin 3 → ℚ) (i j : Fin n) : ℚ :=
  ∑ c, (pos i c - pos j c) ^ 2

/-- Entry `i` of `torch.linspace(a, b, steps)`. -/
def linspaceQ (a b : ℚ) (steps i : ℕ) : ℚ :=
  a + (b - a) * i / ((steps - 1 : ℕ) : ℚ)

/-- Squared lower bin edge `lower[k]` of `dgram_from_positions`
(embedders.py line 250). -/
def dgram_lower (min_bin max_bin : ℚ) (no_bins k : ℕ) : ℚ :=
  (linspaceQ min_bin max_bin no_bins k) ^ 2

/-- Squared upper bin edge `upper[k] = cat([lower[1:], inf])`
(embedders.py line 251). -/
def dgram_upper (min_bin max_bin : ℚ) (no_bins : ℕ) (inf_val : ℚ) (k : ℕ) : ℚ :=
  if k + 1 < no_bins then dgram_lower min_bin max_bin no_bins (k + 1) else inf_val

/-- Channel `k` of the bin membership test
`((dgram > lower) * (dgram < upper))` (embedders.py line 252), applied to a
squared distance `d`. -/
def dgramBin (min_bin max_bin : ℚ) (no_bins : ℕ) (inf_val d : ℚ) (k : ℕ) : ℚ :=
  (if dgram_lower min_bin max_bin no_bins k < d then 1 else 0) *
    (if d < dgram_upper min_bin max_bin no_bins inf_val k then 1 else 0)

/-- `dgram_from_positions` (embedders.py lines 239-254) at the ordered pair
`(i, j)` and channel `k`. -/
def dgram_from_positions {n : ℕ} (pos : Fin n → Fin 3 → ℚ) (min_bin max_bin : ℚ)
    (no_bins : ℕ) (inf_val : ℚ) (i j : Fin n) (k : Fin no_bins) : ℚ :=
  dgramBin min_bin max_bin no_bins inf_val (sqdQ pos i j) k.val

/-- A bin vector is one-hot: some channel equals 1 and all other channels
are 0. -/
def isOneHot {m : ℕ} (v : Fin m → ℚ) : Prop :=
  ∃ k, v k = 1 ∧ ∀ j, j ≠ k → v j = 0

instance {m : ℕ} (v : Fin m → ℚ) : Decidable (isOneHot v) :=
  decidable_of_iff (∃ k, v k = 1 ∧ ∀ j, j ≠ k → v j = 0) Iff.rfl

/-- Closed form of the default squared bin edges:
`lower[k] = (3.25 + 1.25 k)²`. -/
lemma dgram_lower_eval (k : ℕ) : dgram_lower 3.25 50.75 39 k = (3.25 + 1.25 * k) ^ 2 := by
  unfold dgram_lower linspaceQ
  norm_num
  ring

/-- With the default parameters the squared bin edges are monotone in the
bin index. -/
lemma dgram_lower_default_mono {a b : ℕ} (hab : a ≤ b) :
    dgram_lower 3.25 50.75 39 a ≤ dgram_lower 3.25 50.75 39 b := by
  rw [dgram_lower_eval, dgram_lower_eval]
  have hc : ((a : ℚ)) ≤ (b : ℚ) := Nat.cast_le.mpr hab
  have ha0 : (0 : ℚ) ≤ (a : ℚ) := Nat.cast_nonneg a
  have h0 : (0 : ℚ) ≤ 3.25 + 1.25 * (a : ℚ) := by linarith
  have h1 : 3.25 + 1.25 * (a : ℚ) ≤ 3.25 + 1.25 * (b : ℚ) := by linarith
  exact pow_le_pow_left₀ h0 h1 2

/-- Boundary-value lemma: a squared distance equal to a bin edge passes
neither strict test of any channel. -/
lemma dgramBin_boundary_zero (d : ℚ) (k0 : ℕ) (h2 : k0 ≤ 38)
    (hd : d = dgram_lower 3.25 50.75 39 k0) (k : Fin 39) :
    dgramBin 3.25 50.75 39 1e8 d k.val = 0 := by
  unfold dgramBin
  rcases le_or_lt k0 k.val with hge | hlt
  · have hnot : ¬ (dgram_lower 3.25 50.75 39 k.val < d) := by
      rw [hd]
      exact not_lt.mpr (dgram_lower_default_mono hge)
    rw [if_neg hnot, zero_mul]
  · have hj1 : k.val + 1 < 39 := by omega
    have hle : dgram_upper 3.25 50.75 39 1e8 k.val ≤ dgram_lower 3.25 50.75 39 k0 := by
      unfold dgram_upper
      rw [if_pos hj1]
      exact dgram_lower_default_mono (by omega)
    have hnot : ¬ (d < dgram_upper 3.25 50.75 39 1e8 k.val) := by
      rw [hd]
      exact not_lt.mpr hle
    rw [if_neg hnot, mul_zero]

/-- Core one-hot lemma for the default distogram bins: a squared distance
strictly above the first edge, strictly below the infinity cutoff, and equal
to no edge lies in exactly one bin. -/
lemma dgramBin_one_hot_off_boundaries (d : ℚ)
    (h0 : dgram_lower 3.25 50.75 39 0 < d)
    (hb : ∀ k : Fin 39, d ≠ dgram_lower 3.25 50.75 39 k.val)
    (hinf : d < 1e8) :
    isOneHot (fun k : Fin 39 => dgramBin 3.25 50.75 39 1e8 d k.val) := by
  classical
  let S : Finset (Fin 39) := Finset.univ.filter (fun k => dgram_lower 3.25 50.75 39 k.val < d)
  have h0S : (⟨0, by norm_num⟩ : Fin 39) ∈ S := by
    simp only [S, Finset.mem_filter, Finset.mem_univ, true_and]
    exact h0
  have hne : S.Nonempty := ⟨_, h0S⟩
  have hKmem : S.max' hne ∈ S := S.max'_mem hne
  have hKlt : dgram_lower 3.25 50.75 39 (S.max' hne).val < d := by
    simpa [S, Finset.mem_filter] using hKmem
  have hupper : d < dgram_upper 3.25 50.75 39 1e8 (S.max' hne).val := by
    unfold dgram_upper
    split_ifs with h
    · by_contra hcon
      push_neg at hcon
      have hmem : (⟨(S.max' hne).val + 1, h⟩ : Fin 39) ∈ S := by
        simp only [S, Finset.mem_filter, Finset.mem_univ, true_and]
        exact lt_of_le_of_ne hcon (Ne.symm (hb ⟨(S.max' hne).val + 1, h⟩))
      have hle := S.le_max' _ hmem
      have : (S.max' hne).val + 1 ≤ (S.max' hne).val := hle
      omega
    · exact hinf
  refine ⟨S.max' hne, ?_, ?_⟩
  · show dgramBin 3.25 50.75 39 1e8 d (S.max' hne).val = 1
    unfold dgramBin
    rw [if_pos hKlt, if_pos hupper]
    norm_num
  · intro j hj
    show dgramBin 3.25 50.75 39 1e8 d j.val = 0
    unfold dgramBin
    rcases lt_or_gt_of_ne hj with hlt | hgt
    · have hjv : j.val < (S.max' hne).val := hlt
      have hj1 : j.val + 1 < 39 := by
        have := (S.max' hne).isLt
        omega
      have hle : dgram_upper 3.25 50.75 39 1e8 j.val ≤ dgram_lower 3.25 50.75 39 (S.max' hne).val := by
        unfold dgram_upper
        rw [if_pos hj1]
        exact dgram_lower_default_mono (by omega)
      have hnot : ¬ (d < dgram_upper 3.25 50.75 39 1e8 j.val) :=
        not_lt.mpr (le_trans hle (le_of_lt hKlt))
      rw [if_neg hnot, mul_zero]
    · have hnot : ¬ (dgram_lower 3.25 50.75 39 j.val < d) := by
        intro hcon
        have hmem : j ∈ S := by
          simp only [S, Finset.mem_filter, Finset.mem_univ, true_and]
          exact hcon
        have hle := S.le_max' j hmem
        exact absurd hgt (not_lt.mpr hle)
      rw [if_neg hnot, zero_mul]

/-- C5 (amended): with the default parameters, `dgram_from_positions` is
one-hot along the bin axis for every ordered pair whose squared distance
exceeds `min_bin²`, is below the `inf` cutoff, and coincides with no bin
edge; the open bins are pairwise disjoint, so such a squared distance lies
in exactly one bin.  (Squared distances exactly on an edge — including
`min_bin²` itself, whose distance lies in `[min_bin, max_bin)` — receive an
all-zero vector, refuting the claim as stated.) -/
theorem c5_dgram_one_hot_off_boundaries {n : ℕ} (pos : Fin n → Fin 3 → ℚ) (i j : Fin n)
    (h0 : dgram_lower 3.25 50.75 39 0 < sqdQ pos i j)
    (hb : ∀ k : Fin 39, sqdQ pos i j ≠ dgram_lower 3.25 50.75 39 k.val)
    (hinf : sqdQ pos i j < 1e8) :
    isOneHot (fun k => dgram_from_positions pos 3.25 50.75 39 1e8 i j k) := by
  unfold dgram_from_positions
  exact dgramBin_one_hot_off_boundaries (sqdQ pos i j) h0 hb hinf

/-- Two atoms exactly `min_bin = 3.25` Å apart: the distance is inside
`[min_bin, max_bin)` yet the squared distance equals the first bin edge. -/
def posC5 : Fin 2 → Fin 3 → ℚ := ![![0, 0, 0], ![3.25, 0, 0]]

lemma sqdQ_posC5 : sqdQ posC5 0 1 = dgram_lower 3.25 50.75 39 0 := by
  rw [dgram_lower_eval]
  unfold sqdQ posC5
  rw [Fin.sum_univ_three]
  norm_num

/-- C5 counterexample: the pair distance is within `[min_bin, max_bin)`
(`min_bin² ≤ d² < max_bin²`), but the output of `dgram_from_positions` is
the all-zero vector, not one-hot. -/
theorem c5_counterexample :
    dgram_lower 3.25 50.75 39 0 ≤ sqdQ posC5 0 1 ∧
      sqdQ posC5 0 1 < dgram_lower 3.25 50.75 39 38 ∧
      ¬ isOneHot (fun k => dgram_from_positions posC5 3.25 50.75 39 1e8 0 1 k) := by
  refine ⟨le_of_eq sqdQ_posC5.symm, ?_, ?_⟩
  · rw [sqdQ_posC5, dgram_lower_eval, dgram_lower_eval]
    norm_num
  · rintro ⟨k, hk1, -⟩
    dsimp only at hk1
    have hz : dgram_from_positions posC5 3.25 50.75 39 1e8 0 1 k = 0 := by
      unfold dgram_from_positions
      exact dgramBin_boundary_zero _ 0 (by norm_num) sqdQ_posC5 k
    rw [hz] at hk1
    norm_num at hk1

/-- Two atoms 4 Å apart: squared distance 16 lies strictly inside bin 0. -/
def posC5w : Fin 2 → Fin 3 → ℚ := ![![0, 0, 0], ![4, 0, 0]]

lemma sqdQ_posC5w : sqdQ posC5w 0 1 = 16 := by
  unfold sqdQ posC5w
  rw [Fin.sum_univ_three]
  norm_num

theorem c5_witness :
    isOneHot (fun k => dgram_from_positions posC5w 3.25 50.75 39 1e8 0 1 k) := by
  refine c5_dgram_one_hot_off_boundaries posC5w 0 1 ?_ ?_ ?_
  · rw [sqdQ_posC5w, dgram_lower_eval]
    norm_num
  · intro k
    rw [sqdQ_posC5w]
    rcases Nat.eq_zero_or_pos k.val with h | h
    · rw [h, dgram_lower_eval]
      norm_num
    · have h1 : dgram_lower 3.25 50.75 39 1 ≤ dgram_lower 3.25 50.75 39 k.val :=
        dgram_lower_default_mono h
      rw [dgram_lower_eval] at h1
      intro hcon
      rw [← hcon] at h1
      norm_num at h1
  · rw [sqdQ_posC5w]
    norm_num

/-- C6: bin membership in `dgram_from_positions` uses strict `>` against the
lower edge and strict `<` against the upper edge, so a squared distance
exactly equal to an interior bin edge `lower[k0]` (`1 ≤ k0 ≤ 38`) is
assigned to neither adjacent bin — every channel of the output is zero —
the final bin's upper edge being the effectively-infinite cutoff `1e8`. -/
theorem c6_boundary_in_no_bin {n : ℕ} (pos : Fin n → Fin 3 → ℚ) (i j : Fin n)
    (k0 : ℕ) (h1 : 1 ≤ k0) (h2 : k0 ≤ 38)
    (hd : sqdQ pos i j = dgram_lower 3.25 50.75 39 k0) (k : Fin 39) :
    dgram_from_positions pos 3.25 50.75 39 1e8 i j k = 0 := by
  unfold dgram_from_positions
  exact dgramBin_boundary_zero (sqdQ pos i j) k0 h2 hd k

/-- Two atoms exactly 4.5 Å apart: squared distance `20.25 = lower[1]`. -/
def posC6w : Fin 2 → Fin 3 → ℚ := ![![0, 0, 0], ![4.5, 0, 0]]

lemma sqdQ_posC6w : sqdQ posC6w 0 1 = dgram_lower 3.25 50.75 39 1 := by
  rw [dgram_lower_eval]
  unfold sqdQ posC6w
  rw [Fin.sum_univ_three]
  norm_num

theorem c6_witness :
    sqdQ posC6w 0 1 = dgram_lower 3.25 50.75 39 1 ∧
      dgram_from_positions posC6w 3.25 50.75 39 1e8 0 1 ⟨5, by norm_num⟩ = 0 :=
  ⟨sqdQ_posC6w, c6_boundary_in_no_bin posC6w 0 1 1 (by norm_num) (by norm_num) sqdQ_posC6w _⟩

/-! ## Template feature construction (`TemplateEmbedder.forward`,
embedders.py lines 320-365) -/

/-- `torch.isclose` with the default tolerances `rtol = 1e-5`,
`atol = 1e-8`: `|input - other| ≤ atol + rtol * |other|`. -/
def iscloseQ (input other : ℚ) : Prop :=
  |input - other| ≤ 1e-8 + 1e-5 * |other|

instance (a b : ℚ) : Decidable (iscloseQ a b) :=
  decidable_of_iff (|a - b| ≤ 1e-8 + 1e-5 * |b|) Iff.rfl

/-- `F.one_hot(x, num_classes)` as a 0/1 rational vector. -/
def onehotQ (cls x : ℕ) (k : Fin cls) : ℚ := if x = k.val then 1 else 0

/-- The `same_asym_id` gate of `TemplateEmbedder.forward` (embedders.py
lines 352-356) at the ordered token pair `(i, j)`: `torch.isclose` of the
broadcast `asym_id` tensors, as a 0/1 float. -/
def sameAsymGate {n : ℕ} (asym : Fin n → ℚ) (i j : Fin n) : ℚ :=
  if iscloseQ (asym j) (asym i) then 1 else 0

/-- The pairwise pseudo-beta validity mask
`b_pseudo_beta_mask[..., None] * b_pseudo_beta_mask[..., None, :]`
(embedders.py lines 342-343). -/
def pbPairMask {n nt : ℕ} (pb_mask : Fin nt → Fin n → ℚ) (t : Fin nt) (i j : Fin n) : ℚ :=
  pb_mask t i * pb_mask t j

/-- Concatenated per-template pair feature `template_feat` built by
`TemplateEmbedder.forward` (embedders.py lines 320-365).  Channel layout:
0-38 template distogram, 39 pseudo-beta pair-mask flag, 40-61 token-i
residue-type one-hot, 62-83 token-j residue-type one-hot (84 channels, the
`no_template_features` constant).  The `same_asym_id` gate multiplies only
the first 40 channels — it is applied (line 357) before the residue-type
one-hots are concatenated (line 362) — while the pseudo-beta pair mask
multiplies all 84 channels (line 365). -/
def templateEmbedderFeat {n nt : ℕ} (asym : Fin n → ℚ) (aatype : Fin nt → Fin n → ℕ)
    (pseudo_beta : Fin nt → Fin n → Fin 3 → ℚ) (pb_mask : Fin nt → Fin n → ℚ)
    (t : Fin nt) (i j : Fin n) (k : Fin 84) : ℚ :=
  (if h39 : k.val < 39 then
      dgram_from_positions (pseudo_beta t) 3.25 50.75 39 1e8 i j ⟨k.val, h39⟩ * sameAsymGate asym i j
    else if k.val < 40 then pbPairMask pb_mask t i j * sameAsymGate asym i j
    else if h62 : k.val < 62 then onehotQ 22 (aatype t i) ⟨k.val - 40, by omega⟩
    else onehotQ 22 (aatype t j) ⟨k.val - 62, by have hk := k.isLt; omega⟩) *
    pbPairMask pb_mask t i j

/-- C3 (amended): for an ordered token pair whose `asym_id`s are not close
(`torch.isclose` with default tolerances — in particular any pair of
distinct integer chain ids), the distogram and pair-validity channels
(indices < 40) of the per-template concatenated feature are zero regardless
of distogram and residue-type values; the residue-type one-hot channels
(40-83) are NOT gated by `asym_id` and may stay nonzero. -/
theorem c3_cross_chain_zeroes_distogram_channels {n nt : ℕ} (asym : Fin n → ℚ)
    (aatype : Fin nt → Fin n → ℕ) (pseudo_beta : Fin nt → Fin n → Fin 3 → ℚ)
    (pb_mask : Fin nt → Fin n → ℚ) (t : Fin nt) (i j : Fin n)
    (hdiff : ¬ iscloseQ (asym j) (asym i)) (k : Fin 84) (hk : k.val < 40) :
    templateEmbedderFeat asym aatype pseudo_beta pb_mask t i j k = 0 := by
  unfold templateEmbedderFeat sameAsymGate
  rw [if_neg hdiff]
  by_cases h39 : k.val < 39
  · rw [dif_pos h39, mul_zero, zero_mul]
  · rw [dif_neg h39, if_pos hk, mul_zero, zero_mul]

/-- Two tokens on different chains (`asym_id` 0 and 1), one template, both
pseudo-beta masks valid, residue types 3 and 5. -/
def asymC3 : Fin 2 → ℚ := ![0, 1]

def aatypeC3 : Fin 1 → Fin 2 → ℕ := fun _ i => if i = 0 then 3 else 5

def pseudoBetaC3 : Fin 1 → Fin 2 → Fin 3 → ℚ := fun _ _ _ => 0

def pbMaskC3 : Fin 1 → Fin 2 → ℚ := fun _ _ => 1

/-- C3 counterexample: a cross-chain pair whose concatenated template
feature is NOT entirely zero — channel 43 (the token-i residue-type one-hot
at class 3) equals 1. -/
theorem c3_counterexample :
    ¬ iscloseQ (asymC3 1) (asymC3 0) ∧
      templateEmbedderFeat asymC3 aatypeC3 pseudoBetaC3 pbMaskC3 0 0 1 ⟨43, by norm_num⟩ = 1 := by
  constructor
  · unfold iscloseQ asymC3
    norm_num
  · unfold templateEmbedderFeat
    norm_num
    unfold onehotQ aatypeC3 pbPairMask pbMaskC3
    norm_num

theorem c3_witness :
    ¬ iscloseQ (asymC3 1) (asymC3 0) ∧
      templateEmbedderFeat asymC3 aatypeC3 pseudoBetaC3 pbMaskC3 0 0 1 ⟨0, by norm_num⟩ = 0 := by
  have hdiff : ¬ iscloseQ (asymC3 1) (asymC3 0) := by
    unfold iscloseQ asymC3
    norm_num
  exact ⟨hdiff,
    c3_cross_chain_zeroes_distogram_channels asymC3 aatypeC3 pseudoBetaC3 pbMaskC3 0 0 1 hdiff
      ⟨0, by norm_num⟩ (by norm_num)⟩

/-! ## Zero-template division (`TemplateEmbedder.forward`,
embedders.py lines 367-388) -/

/-- The accumulator `u` after the per-template loop: `torch.zeros_like`
start, one increment per template.  The contribution of template `t` — the
layer-normalized residual output of the external `TemplatePairStack`, a
collaborator outside these sources — is abstracted as `contrib t`. -/
def templateEmbedderAccum (contrib : ℕ → ℚ) (n_templ : ℕ) : ℚ :=
  ∑ t ∈ Finset.range n_templ, contrib t

/-- The unguarded average `u = torch.div(u, n_templ)` (embedders.py line
386) under IEEE division semantics. -/
def templateEmbedderAverage (contrib : ℕ → ℚ) (n_templ : ℕ) : PFloat :=
  (PFloat.val (templateEmbedderAccum contrib n_templ)).div (PFloat.val (n_templ : ℚ))

/-- C4 (code behavior at the failing input): with zero templates the loop
never runs, the accumulator stays zero, and the unconditional
`torch.div(u, n_templ)` computes `0 / 0 = NaN`, which then flows through
the ReLU and output projection — there is no guard and no explicit error,
contradicting the claim. -/
theorem c4_zero_templates_divides_to_nan (contrib : ℕ → ℚ) :
    templateEmbedderAverage contrib 0 = PFloat.nan := by
  unfold templateEmbedderAverage templateEmbedderAccum
  simp [PFloat.div]

/-! ## Initial pair representation (`InputEmbedder.forward`,
embedders.py lines 213-226) -/

/-- `LinearNoBias`: a linear layer without bias applied along the channel
axis. -/
def linearNoBias {din dout : ℕ} (W : Fin dout → Fin din → ℚ) (v : Fin din → ℚ)
    (o : Fin dout) : ℚ :=
  ∑ x, W o x * v x

/-- `s_inputs[..., None, :]` — unsqueeze at the second-to-last token axis
(a size-1 axis before the token axis collapses under broadcasting). -/
def unsqueezePenult {n c : ℕ} (s : Fin n → Fin c → ℚ) : Fin n → Fin 1 → Fin c → ℚ :=
  fun i _ k => s i k

/-- `s_inputs[..., None, :, :]` — unsqueeze at the third-to-last axis. -/
def unsqueezeAnte {n c : ℕ} (s : Fin n → Fin c → ℚ) : Fin 1 → Fin n → Fin c → ℚ :=
  fun _ j k => s j k

/-- Broadcast addition of a `(n, 1, c)` tensor and a `(1, n, c)` tensor to
shape `(n, n, c)`: every size-1 axis index collapses to 0. -/
def broadcastAdd {n c : ℕ} (a : Fin n → Fin 1 → Fin c → ℚ) (b : Fin 1 → Fin n → Fin c → ℚ) :
    Fin n → Fin n → Fin c → ℚ :=
  fun i j k => a i ⟨0, Nat.one_pos⟩ k + b ⟨0, Nat.one_pos⟩ j k

/-- The initial pair representation `z_init` of `InputEmbedder.forward`
(embedders.py lines 215-226): broadcast sum of the two no-bias projections
of the unsqueezed `s_inputs`, plus the relative position encoding (an
external collaborator, passed as `relpos`). -/
def inputEmbedderZInit {n ct cp : ℕ} (Wi Wj : Fin cp → Fin ct → ℚ) (s : Fin n → Fin ct → ℚ)
    (relpos : Fin n → Fin n → Fin cp → ℚ) (i j : Fin n) (k : Fin cp) : ℚ :=
  broadcastAdd (fun i2 u => linearNoBias Wi (unsqueezePenult s i2 u))
      (fun u j2 => linearNoBias Wj (unsqueezeAnte s u j2)) i j k +
    relpos i j k

/-- C8: for every pair of token indices `(i, j)`, the initial pair
representation of `InputEmbedder.forward` is the outer SUM
`z_init[i, j] = LinearI(s_inputs[i]) + LinearJ(s_inputs[j])` of the two
independent no-bias linear projections broadcast over the two token axes
(not an outer product), plus the relative-position encoding. -/
theorem c8_z_init_outer_sum {n ct cp : ℕ} (Wi Wj : Fin cp → Fin ct → ℚ)
    (s : Fin n → Fin ct → ℚ) (relpos : Fin n → Fin n → Fin cp → ℚ) (i j : Fin n) (k : Fin cp) :
    inputEmbedderZInit Wi Wj s relpos i j k =
      linearNoBias Wi (s i) k + linearNoBias Wj (s j) k + relpos i j k := by
  unfold inputEmbedderZInit broadcastAdd unsqueezePenult unsqueezeAnte
  rfl

/-! ## Real-valued losses (`src/utils/loss.py`)

Floats are modelled as exact reals.  The geometry helpers
(`src.utils.geometry.vector`) are not part of these sources and are
modelled from the spec as the exact Euclidean (squared) distance. -/

noncomputable section

/-- Squared Euclidean distance of two 3-D points over `ℝ`. -/
def sqdR (a b : Fin 3 → ℝ) : ℝ := ∑ c, (a c - b c) ^ 2

/-- Modelled from the spec: `euclidean_distance` of the missing
`src.utils.geometry.vector` module — the Euclidean distance between two
3-D points. -/
def euclideanDist (a b : Fin 3 → ℝ) : ℝ := Real.sqrt (sqdR a b)

/-- The logistic sigmoid `F.sigmoid`. -/
def sigmoid (x : ℝ) : ℝ := 1 / (1 + Real.exp (-x))

/-- `delta_lm` (loss.py lines 46-50): absolute difference between the
ground-truth and predicted pair distances. -/
def deltaLm {bs n : ℕ} (pred gt : Fin bs → Fin n → Fin 3 → ℝ) (b : Fin bs) (l m : Fin n) : ℝ :=
  |euclideanDist (gt b l) (gt b m) - euclideanDist (pred b l) (pred b m)|

/-- `epsilon_lm` (loss.py lines 51-56): mean of four shifted sigmoids of
the distance difference. -/
def epsilonLm {bs n : ℕ} (pred gt : Fin bs → Fin n → Fin 3 → ℝ) (b : Fin bs) (l m : Fin n) : ℝ :=
  (sigmoid (0.5 - deltaLm pred gt b l m) + sigmoid (1 - deltaLm pred gt b l m) +
      sigmoid (2 - deltaLm pred gt b l m) + sigmoid (4 - deltaLm pred gt b l m)) / 4

/-- Optional-mask lookup: a `None` mask behaves as all-ones. -/
def mval {bs n : ℕ} (mask : Option (Fin bs → Fin n → ℝ)) (b : Fin bs) (i : Fin n) : ℝ :=
  match mask with
  | none => 1
  | some m => m b i

/-- `c_lm` after the bespoke inclusion radius (30 Å for nucleotide first
atoms, 15 Å otherwise), the optional pair mask, and the self-pair
exclusion (loss.py lines 58-71). -/
def cLm {bs n : ℕ} (gt : Fin bs → Fin n → Fin 3 → ℝ) (rna dna : Fin bs → Fin n → ℝ)
    (mask : Option (Fin bs → Fin n → ℝ)) (b : Fin bs) (l m : Fin n) : ℝ :=
  ((if euclideanDist (gt b l) (gt b m) < 30 then (1 : ℝ) else 0) * (dna b l + rna b l) +
      (if euclideanDist (gt b l) (gt b m) < 15 then (1 : ℝ) else 0) * (1 - (dna b l + rna b l))) *
    (mval mask b l * mval mask b m) * (if l = m then 0 else 1)

/-- Denominator `torch.sum(c_lm) + epsilon` of the smooth lDDT score
(loss.py line 72). -/
def smoothDenom {bs n : ℕ} (gt : Fin bs → Fin n → Fin 3 → ℝ) (rna dna : Fin bs → Fin n → ℝ)
    (mask : Option (Fin bs → Fin n → ℝ)) (ε : ℝ) (b : Fin bs) : ℝ :=
  (∑ l, ∑ m, cLm gt rna dna mask b l m) + ε

/-- Per-batch-element smooth lDDT score (loss.py line 73). -/
def lddtB {bs n : ℕ} (pred gt : Fin bs → Fin n → Fin 3 → ℝ) (rna dna : Fin bs → Fin n → ℝ)
    (mask : Option (Fin bs → Fin n → ℝ)) (ε : ℝ) (b : Fin bs) : ℝ :=
  (∑ l, ∑ m, epsilonLm pred gt b l m * cLm gt rna dna mask b l m) /
    smoothDenom gt rna dna mask ε b

/-- `smooth_lddt_loss` (loss.py lines 29-75): batch mean of
`1 - lddt`. -/
def smooth_lddt_loss {bs n : ℕ} (pred gt : Fin bs → Fin n → Fin 3 → ℝ)
    (rna dna : Fin bs → Fin n → ℝ) (mask : Option (Fin bs → Fin n → ℝ)) (ε : ℝ) : ℝ :=
  (∑ b, (1 - lddtB pred gt rna dna mask ε b)) / bs

/-- Follows the claim's words (C9): the pair inclusion coefficient when the
15 Å non-nucleotide radius is applied to every atom pair. -/
def cLm15 {bs n : ℕ} (gt : Fin bs → Fin n → Fin 3 → ℝ) (mask : Option (Fin bs → Fin n → ℝ))
    (b : Fin bs) (l m : Fin n) : ℝ :=
  (if euclideanDist (gt b l) (gt b m) < 15 then (1 : ℝ) else 0) *
    (mval mask b l * mval mask b m) * (if l = m then 0 else 1)

/-- Follows the claim's words (C9): the smooth lDDT loss with the 15 Å
radius applied to every pair — the 30 Å nucleotide radius never used. -/
def smooth_lddt_loss_radius15 {bs n : ℕ} (pred gt : Fin bs → Fin n → Fin 3 → ℝ)
    (mask : Option (Fin bs → Fin n → ℝ)) (ε : ℝ) : ℝ :=
  (∑ b, (1 - (∑ l, ∑ m, epsilonLm pred gt b l m * cLm15 gt mask b l m) /
      ((∑ l, ∑ m, cLm15 gt mask b l m) + ε))) / bs

/-- The smooth lDDT term exactly as `AlphaFold3Loss._compute_losses`
invokes it (loss.py lines 267-274): `atom_is_rna` and `atom_is_dna` are
`torch.zeros_like(batch["atom_exists"])` and the mask is
`batch["atom_exists"]`. -/
def computeLossesSmoothTerm {bs n : ℕ} (denoised augmented_gt : Fin bs → Fin n → Fin 3 → ℝ)
    (atom_exists : Fin bs → Fin n → ℝ) : ℝ :=
  smooth_lddt_loss denoised augmented_gt (fun _ _ => 0) (fun _ _ => 0) (some atom_exists) 1e-5

lemma cLm_zero_nucleotide {bs n : ℕ} (gt : Fin bs → Fin n → Fin 3 → ℝ)
    (mask : Option (Fin bs → Fin n → ℝ)) (b : Fin bs) (l m : Fin n) :
    cLm gt (fun _ _ => (0 : ℝ)) (fun _ _ => (0 : ℝ)) mask b l m = cLm15 gt mask b l m := by
  unfold cLm cLm15
  ring

/-- C9: through `AlphaFold3Loss._compute_losses` the smooth lDDT term is
computed with `atom_is_rna = atom_is_dna = 0`, so it coincides — for every
input — with the loss in which the 15 Å non-nucleotide inclusion radius is
applied to every atom pair; the 30 Å nucleotide radius is never used
through the aggregator. -/
theorem c9_aggregator_smooth_lddt_uses_15A_radius {bs n : ℕ}
    (denoised augmented_gt : Fin bs → Fin n → Fin 3 → ℝ) (atom_exists : Fin bs → Fin n → ℝ) :
    computeLossesSmoothTerm denoised augmented_gt atom_exists =
      smooth_lddt_loss_radius15 denoised augmented_gt (some atom_exists) 1e-5 := by
  unfold computeLossesSmoothTerm smooth_lddt_loss smooth_lddt_loss_radius15 lddtB smoothDenom
  simp only [cLm_zero_nucleotide]

lemma sigmoid_pos (x : ℝ) : 0 < sigmoid x := by
  unfold sigmoid
  have h := Real.exp_pos (-x)
  exact div_pos one_pos (by linarith)

lemma sigmoid_lt_one (x : ℝ) : sigmoid x < 1 := by
  unfold sigmoid
  have h := Real.exp_pos (-x)
  rw [div_lt_one (by linarith)]
  linarith

lemma epsilonLm_self_eq {bs n : ℕ} (gt : Fin bs → Fin n → Fin 3 → ℝ) (b : Fin bs) (l m : Fin n) :
    epsilonLm gt gt b l m = (sigmoid 0.5 + sigmoid 1 + sigmoid 2 + sigmoid 4) / 4 := by
  unfold epsilonLm deltaLm
  rw [sub_self, abs_zero]
  norm_num

lemma cLm_nonneg {bs n : ℕ} (gt : Fin bs → Fin n → Fin 3 → ℝ) (rna dna : Fin bs → Fin n → ℝ)
    (mask : Option (Fin bs → Fin n → ℝ)) (hr : ∀ b l, 0 ≤ rna b l) (hd : ∀ b l, 0 ≤ dna b l)
    (hm : ∀ b l, 0 ≤ mval mask b l) (b : Fin bs) (l m : Fin n) :
    0 ≤ cLm gt rna dna mask b l m := by
  unfold cLm
  have hnuc : 0 ≤ dna b l + rna b l := add_nonneg (hd b l) (hr b l)
  have hmm : 0 ≤ mval mask b l * mval mask b m := mul_nonneg (hm b l) (hm b m)
  have hself : (0 : ℝ) ≤ if l = m then 0 else 1 := by
    split_ifs <;> norm_num
  refine mul_nonneg (mul_nonneg ?_ hmm) hself
  by_cases h15 : euclideanDist (gt b l) (gt b m) < 15
  · have h30 : euclideanDist (gt b l) (gt b m) < 30 := by linarith
    rw [if_pos h15, if_pos h30]
    nlinarith
  · rw [if_neg h15]
    split_ifs with h30
    · nlinarith
    · nlinarith

/-- With `pred = gt` the smooth lDDT loss is strictly positive: every
distance difference is zero, so every `epsilon_lm` equals the constant
`(σ(0.5) + σ(1) + σ(2) + σ(4)) / 4 < 1`, and the per-batch score stays
strictly below 1. -/
lemma smooth_lddt_self_pos {bs n : ℕ} (hbs : 0 < bs) (gt : Fin bs → Fin n → Fin 3 → ℝ)
    (rna dna : Fin bs → Fin n → ℝ) (mask : Option (Fin bs → Fin n → ℝ))
    (hr : ∀ b l, 0 ≤ rna b l) (hd : ∀ b l, 0 ≤ dna b l) (hm : ∀ b l, 0 ≤ mval mask b l)
    (ε : ℝ) (hε : 0 < ε) :
    0 < smooth_lddt_loss gt gt rna dna mask ε := by
  unfold smooth_lddt_loss
  apply div_pos
  · apply Finset.sum_pos
    · intro b _
      have hS0 : 0 ≤ ∑ l, ∑ m, cLm gt rna dna mask b l m :=
        Finset.sum_nonneg fun l _ =>
          Finset.sum_nonneg fun m _ => cLm_nonneg gt rna dna mask hr hd hm b l m
      have hs1 := sigmoid_lt_one 0.5
      have hs2 := sigmoid_lt_one 1
      have hs3 := sigmoid_lt_one 2
      have hs4 := sigmoid_lt_one 4
      have hp1 := sigmoid_pos 0.5
      have hp2 := sigmoid_pos 1
      have hp3 := sigmoid_pos 2
      have hp4 := sigmoid_pos 4
      have hlddt : lddtB gt gt rna dna mask ε b < 1 := by
        unfold lddtB smoothDenom
        simp only [epsilonLm_self_eq, ← Finset.mul_sum]
        rw [div_lt_one (by linarith)]
        nlinarith [mul_nonneg
          (le_of_lt (show (0:ℝ) < 1 - (sigmoid 0.5 + sigmoid 1 + sigmoid 2 + sigmoid 4) / 4 by linarith))
          hS0]
      linarith
    · exact ⟨⟨0, hbs⟩, Finset.mem_univ _⟩
  · exact Nat.cast_pos.mpr hbs

/-- C2 (amended): diagonal (same-atom) pairs never contribute to the
numerator or the denominator of `smooth_lddt_loss` (their `c_lm` is zero);
but with `pred = gt` and an all-ones mask the loss is NOT 0 — it is
strictly positive, because at zero distance difference each sigmoid term is
strictly below 1 (the loss equals about 0.196 for the 2-atom concrete
scenario). -/
theorem c2_self_lddt_positive_and_diag_excluded {bs n : ℕ} (hbs : 0 < bs) (hn : 2 ≤ n)
    (gt : Fin bs → Fin n → Fin 3 → ℝ) (rna dna : Fin bs → Fin n → ℝ)
    (hr : ∀ b l, 0 ≤ rna b l) (hd : ∀ b l, 0 ≤ dna b l) :
    (∀ b l, cLm gt rna dna (some fun _ _ => (1 : ℝ)) b l l = 0) ∧
      0 < smooth_lddt_loss gt gt rna dna (some fun _ _ => (1 : ℝ)) 1e-5 := by
  constructor
  · intro b l
    unfold cLm
    simp
  · exact smooth_lddt_self_pos hbs gt rna dna _ hr hd (fun b l => by norm_num [mval]) 1e-5
      (by norm_num)

/-- The spec's concrete scenario: one batch element, two atoms at
`(0,0,0)` and `(0,0,1)`. -/
def gtC2 : Fin 1 → Fin 2 → Fin 3 → ℝ := fun _ i c => if i = 1 ∧ c = 2 then 1 else 0

/-- C2 counterexample: two atoms at `(0,0,0)` and `(0,0,1)`, both
non-nucleotide, mask all-ones, `pred = gt` — `smooth_lddt_loss` does NOT
return 0. -/
theorem c2_counterexample :
    smooth_lddt_loss gtC2 gtC2 (fun _ _ => 0) (fun _ _ => 0) (some fun _ _ => 1) 1e-5 ≠ 0 :=
  ne_of_gt (smooth_lddt_self_pos (by norm_num) gtC2 _ _ _ (fun _ _ => le_refl 0)
    (fun _ _ => le_refl 0) (fun _ _ => by norm_num [mval]) 1e-5 (by norm_num))

theorem c2_witness :
    cLm gtC2 (fun _ _ => (0 : ℝ)) (fun _ _ => (0 : ℝ)) (some fun _ _ => (1 : ℝ)) 0 0 0 = 0 ∧
      0 < smooth_lddt_loss gtC2 gtC2 (fun _ _ => 0) (fun _ _ => 0) (some fun _ _ => 1) 1e-5 :=
  ⟨(c2_self_lddt_positive_and_diag_excluded (by norm_num) (by norm_num) gtC2 _ _
      (fun _ _ => le_refl 0) (fun _ _ => le_refl 0)).1 0 0,
    (c2_self_lddt_positive_and_diag_excluded (by norm_num) (by norm_num) gtC2 _ _
      (fun _ _ => le_refl 0) (fun _ _ => le_refl 0)).2⟩

/-! ## Weighted MSE (`mean_squared_error`, loss.py lines 78-102) -/

/-- The mask-normalization denominator `epsilon + torch.sum(mask, dim=-1)`
of `mean_squared_error` (loss.py line 98). -/
def mseDenom {bs n : ℕ} (mask : Option (Fin bs → Fin n → ℝ)) (ε : ℝ) (b : Fin bs) : ℝ :=
  ε + ∑ i, mval mask b i

/-- `mean_squared_error` (loss.py lines 78-102), per batch element; the
atom-wise `square_euclidean_distance` of the missing geometry module is
modelled from the spec as the exact squared distance. -/
def mean_squared_error {bs n : ℕ} (pred gt : Fin bs → Fin n → Fin 3 → ℝ)
    (weights : Fin bs → Fin n → ℝ) (mask : Option (Fin bs → Fin n → ℝ)) (ε : ℝ)
    (b : Fin bs) : ℝ :=
  ((∑ i, sqdR (pred b i) (gt b i) * mval mask b i * weights b i) / mseDenom mask ε b) / 3

/-! ## Distogram loss (`distogram_loss`, loss.py lines 153-202) -/

/-- Entry `i` of `torch.linspace(a, b, steps)` over `ℝ`. -/
def linspaceR (a b : ℝ) (steps i : ℕ) : ℝ :=
  a + (b - a) * i / ((steps - 1 : ℕ) : ℝ)

/-- `F.log_softmax` along the last axis. -/
def logSoftmax {m : ℕ} (v : Fin m → ℝ) (k : Fin m) : ℝ :=
  v k - Real.log (∑ j, Real.exp (v j))

/-- `softmax_cross_entropy` (loss.py lines 145-150). -/
def softmax_cross_entropy {m : ℕ} (logits labels : Fin m → ℝ) : ℝ :=
  -(∑ k, labels k * logSoftmax logits k)

/-- Modelled from the spec: `residue_constants.atom_order` (module not in
these sources) assigns the CA atom index 1 in the backbone atom order. -/
def caPos : Fin 4 := 1

/-- The CA-based pseudo-beta coordinates extracted from the reshaped
`all_atom_positions` (loss.py lines 166-169). -/
def pseudoBeta {bs nt : ℕ} (allpos : Fin bs → Fin nt → Fin 4 → Fin 3 → ℝ) (b : Fin bs)
    (i : Fin nt) : Fin 3 → ℝ :=
  allpos b i caPos

/-- `true_bins = torch.sum(dists > boundaries)` (loss.py lines 172-184). -/
def trueBins {bs nt : ℕ} (allpos : Fin bs → Fin nt → Fin 4 → Fin 3 → ℝ)
    (min_bin max_bin : ℝ) (no_bins : ℕ) (b : Fin bs) (i j : Fin nt) : ℕ :=
  ∑ k ∈ Finset.range (no_bins - 1),
    if (linspaceR min_bin max_bin (no_bins - 1) k) ^ 2 <
        sqdR (pseudoBeta allpos b i) (pseudoBeta allpos b j) then 1 else 0

/-- Per-pair cross-entropy `errors` of `distogram_loss` (loss.py lines
185-188). -/
def distoErrors {bs nt nb : ℕ} (logits : Fin bs → Fin nt → Fin nt → Fin nb → ℝ)
    (allpos : Fin bs → Fin nt → Fin 4 → Fin 3 → ℝ) (min_bin max_bin : ℝ) (b : Fin bs)
    (i j : Fin nt) : ℝ :=
  softmax_cross_entropy (logits b i j)
    (fun k => if trueBins allpos min_bin max_bin nb b i j = k.val then 1 else 0)

/-- The mask-normalization denominator `eps + torch.sum(square_mask)` of
`distogram_loss` (loss.py line 194). -/
def distoDenom {bs nt : ℕ} (token_mask : Fin bs → Fin nt → ℝ) (eps : ℝ) (b : Fin bs) : ℝ :=
  eps + ∑ i, ∑ j, token_mask b i * token_mask b j

/-- `distogram_loss` (loss.py lines 153-202). -/
def distogram_loss {bs nt nb : ℕ} (logits : Fin bs → Fin nt → Fin nt → Fin nb → ℝ)
    (allpos : Fin bs → Fin nt → Fin 4 → Fin 3 → ℝ) (token_mask : Fin bs → Fin nt → ℝ)
    (min_bin max_bin : ℝ) (eps : ℝ) : ℝ :=
  (∑ b, ∑ i, (∑ j, distoErrors logits allpos min_bin max_bin b i j *
      (token_mask b i * token_mask b j)) / distoDenom token_mask eps b) / bs

/-- C10: each mask-normalization denominator of `smooth_lddt_loss`,
`mean_squared_error` and `distogram_loss` adds a strictly positive epsilon
to a nonnegative mask sum, hence is strictly positive for every input with
nonnegative masks — no division by zero; and on an all-zero validity mask
the three functions return the finite values 1, 0 and 0 respectively. -/
theorem c10_epsilon_denominators_guard_zero_mask {bs n nt nb : ℕ} (hbs : 0 < bs)
    (pred gt : Fin bs → Fin n → Fin 3 → ℝ) (rna dna : Fin bs → Fin n → ℝ)
    (hr : ∀ b l, 0 ≤ rna b l) (hd : ∀ b l, 0 ≤ dna b l)
    (mask : Fin bs → Fin n → ℝ) (hm : ∀ b l, 0 ≤ mask b l)
    (weights : Fin bs → Fin n → ℝ) (token_mask : Fin bs → Fin nt → ℝ)
    (htm : ∀ b i, 0 ≤ token_mask b i) (logits : Fin bs → Fin nt → Fin nt → Fin nb → ℝ)
    (allpos : Fin bs → Fin nt → Fin 4 → Fin 3 → ℝ) (min_bin max_bin ε₁ ε₂ ε₃ : ℝ)
    (hε₁ : 0 < ε₁) (hε₂ : 0 < ε₂) (hε₃ : 0 < ε₃) :
    (∀ b, 0 < smoothDenom gt rna dna (some mask) ε₁ b) ∧
      (∀ b, 0 < mseDenom (some mask) ε₂ b) ∧
      (∀ b, 0 < distoDenom token_mask ε₃ b) ∧
      smooth_lddt_loss pred gt rna dna (some fun _ _ => (0 : ℝ)) ε₁ = 1 ∧
      (∀ b, mean_squared_error pred gt weights (some fun _ _ => (0 : ℝ)) ε₂ b = 0) ∧
      distogram_loss logits allpos (fun _ _ => (0 : ℝ)) min_bin max_bin ε₃ = 0 := by
  have hmv : ∀ b l, 0 ≤ mval (some mask) b l := fun b l => hm b l
  refine ⟨?_, ?_, ?_, ?_, ?_, ?_⟩
  · intro b
    unfold smoothDenom
    have hS : 0 ≤ ∑ l, ∑ m, cLm gt rna dna (some mask) b l m :=
      Finset.sum_nonneg fun l _ =>
        Finset.sum_nonneg fun m _ => cLm_nonneg gt rna dna (some mask) hr hd hmv b l m
    linarith
  · intro b
    unfold mseDenom
    have hS : 0 ≤ ∑ i, mval (some mask) b i := Finset.sum_nonneg fun i _ => hmv b i
    linarith
  · intro b
    unfold distoDenom
    have hS : 0 ≤ ∑ i, ∑ j, token_mask b i * token_mask b j :=
      Finset.sum_nonneg fun i _ =>
        Finset.sum_nonneg fun j _ => mul_nonneg (htm b i) (htm b j)
    linarith
  · have hc : ∀ b l m, cLm gt rna dna (some fun _ _ => (0 : ℝ)) b l m = 0 := by
      intro b l m
      unfold cLm mval
      ring
    unfold smooth_lddt_loss lddtB smoothDenom
    simp only [hc, mul_zero, Finset.sum_const_zero, zero_div, zero_add, sub_zero]
    rw [Finset.sum_const]
    simp only [Finset.card_univ, Fintype.card_fin, nsmul_eq_mul, mul_one]
    exact div_self (ne_of_gt (Nat.cast_pos.mpr hbs))
  · intro b
    unfold mean_squared_error mval
    simp
  · unfold distogram_loss
    simp

/-- All-zero concrete inputs for the C10 witness (one batch element, one
atom, one token, one distogram bin). -/
def zeroCoordsW : Fin 1 → Fin 1 → Fin 3 → ℝ := fun _ _ _ => 0

def zeroMaskW : Fin 1 → Fin 1 → ℝ := fun _ _ => 0

def zeroLogitsW : Fin 1 → Fin 1 → Fin 1 → Fin 1 → ℝ := fun _ _ _ _ => 0

def zeroAllPosW : Fin 1 → Fin 1 → Fin 4 → Fin 3 → ℝ := fun _ _ _ _ => 0

theorem c10_witness :
    0 < smoothDenom zeroCoordsW zeroMaskW zeroMaskW (some zeroMaskW) 1 0 ∧
      0 < mseDenom (some zeroMaskW) 1 0 ∧
      0 < distoDenom zeroMaskW 1 0 ∧
      smooth_lddt_loss zeroCoordsW zeroCoordsW zeroMaskW zeroMaskW (some fun _ _ => (0 : ℝ)) 1 = 1 ∧
      mean_squared_error zeroCoordsW zeroCoordsW zeroMaskW (some fun _ _ => (0 : ℝ)) 1 0 = 0 ∧
      distogram_loss zeroLogitsW zeroAllPosW (fun _ _ => (0 : ℝ)) 0 32 1 = 0 := by
  obtain ⟨h1, h2, h3, h4, h5, h6⟩ :=
    c10_epsilon_denominators_guard_zero_mask (by norm_num) zeroCoordsW zeroCoordsW zeroMaskW
      zeroMaskW (fun _ _ => le_refl 0) (fun _ _ => le_refl 0) zeroMaskW (fun _ _ => le_refl 0)
      zeroMaskW zeroMaskW (fun _ _ => le_refl 0) zeroLogitsW zeroAllPosW 0 32 1 1 1
      (by norm_num) (by norm_num) (by norm_num)
  exact ⟨h1 0, h2 0, h3 0, h4, h5 0, h6⟩

/-! ## Rigid-alignment invariance of the diffusion MSE loss
(`mse_loss`, loss.py lines 115-142)

`weighted_rigid_align` lives in the missing `src.utils.geometry.alignment`
module; it is modelled from the spec as an abstract function satisfying a
least-squares rigid-transform optimality property. -/

/-- A rigid transform of 3-space: a rotation (orthogonal matrix of
determinant 1 — no scaling, no reflection) followed by a translation. -/
structure Rigid where
  A : Matrix (Fin 3) (Fin 3) ℝ
  t : Fin 3 → ℝ
  orth : A.transpose * A = 1
  det1 : A.det = 1

/-- Action of a rigid transform on a point. -/
def Rigid.apply (T : Rigid) (p : Fin 3 → ℝ) : Fin 3 → ℝ :=
  T.A.mulVec p + T.t

/-- Composition of rigid transforms. -/
def Rigid.comp (S T : Rigid) : Rigid where
  A := S.A * T.A
  t := S.A.mulVec T.t + S.t
  orth := by
    rw [Matrix.transpose_mul, mul_assoc, ← mul_assoc S.A.transpose, S.orth, one_mul, T.orth]
  det1 := by
    rw [Matrix.det_mul, S.det1, T.det1, one_mul]

/-- Inverse of a rigid transform. -/
def Rigid.inv (T : Rigid) : Rigid where
  A := T.A.transpose
  t := -(T.A.transpose.mulVec T.t)
  orth := by
    rw [Matrix.transpose_transpose]
    exact Matrix.mul_eq_one_comm.mp T.orth
  det1 := by
    rw [Matrix.det_transpose]
    exact T.det1

lemma Rigid.comp_apply (S T : Rigid) (p : Fin 3 → ℝ) :
    (S.comp T).apply p = S.apply (T.apply p) := by
  unfold Rigid.apply Rigid.comp
  rw [Matrix.mulVec_add, Matrix.mulVec_mulVec, add_assoc]

lemma Rigid.inv_apply_apply (T : Rigid) (p : Fin 3 → ℝ) :
    T.inv.apply (T.apply p) = p := by
  unfold Rigid.apply Rigid.inv
  rw [Matrix.mulVec_add, Matrix.mulVec_mulVec, T.orth, Matrix.one_mulVec, add_assoc]
  simp

/-- The signature of the external `weighted_rigid_align` collaborator:
`align(x, x_gt, weights, mask)` returns points of the same shape as `x`. -/
def AlignFn (bs n : ℕ) : Type :=
  (Fin bs → Fin n → Fin 3 → ℝ) → (Fin bs → Fin n → Fin 3 → ℝ) → (Fin bs → Fin n → ℝ) →
    Option (Fin bs → Fin n → ℝ) → Fin bs → Fin n → Fin 3 → ℝ

/-- The weighted masked squared-deviation objective minimized by the
rigid alignment, per batch element. -/
def alignObj {bs n : ℕ} (pred : Fin bs → Fin n → Fin 3 → ℝ) (weights : Fin bs → Fin n → ℝ)
    (mask : Option (Fin bs → Fin n → ℝ)) (b : Fin bs) (y : Fin n → Fin 3 → ℝ) : ℝ :=
  ∑ i, sqdR (pred b i) (y i) * mval mask b i * weights b i

/-- `mean_squared_error` is the alignment objective normalized by the
mask denominator and the dimension count. -/
lemma mean_squared_error_as_alignObj {bs n : ℕ} (pred y : Fin bs → Fin n → Fin 3 → ℝ)
    (weights : Fin bs → Fin n → ℝ) (mask : Option (Fin bs → Fin n → ℝ)) (ε : ℝ) (b : Fin bs) :
    mean_squared_error pred y weights mask ε b =
      alignObj pred weights mask b (fun i => y b i) / mseDenom mask ε b / 3 :=
  rfl

/-- Modelled from the spec: the rigid-alignment routine satisfies its
least-squares rigid-transform optimality property — per batch element, the
aligned points are a rigid transform of the input minimizing the weighted
objective over all rigid transforms. -/
def AlignOptimal {bs n : ℕ} (align : AlignFn bs n) (x pred : Fin bs → Fin n → Fin 3 → ℝ)
    (weights : Fin bs → Fin n → ℝ) (mask : Option (Fin bs → Fin n → ℝ)) : Prop :=
  ∀ b, ∃ T : Rigid, (∀ i, align x pred weights mask b i = T.apply (x b i)) ∧
    ∀ U : Rigid, alignObj pred weights mask b (fun i => T.apply (x b i)) ≤
      alignObj pred weights mask b (fun i => U.apply (x b i))

/-- `mse_loss` (loss.py lines 115-142): the ground truth is rigidly
aligned to the prediction (`weighted_rigid_align`, passed as `align`),
scored by `mean_squared_error` with its default epsilon, scaled by the
noise level, and batch-averaged. -/
def mse_loss {bs n : ℕ} (align : AlignFn bs n) (pred gt : Fin bs → Fin n → Fin 3 → ℝ)
    (timesteps : Fin bs → ℝ) (weights : Fin bs → Fin n → ℝ)
    (mask : Option (Fin bs → Fin n → ℝ)) (sd_data ε : ℝ) : ℝ :=
  (∑ b, ((timesteps b ^ 2 + sd_data ^ 2) / ((timesteps b * sd_data) ^ 2 + ε)) *
      mean_squared_error pred (align gt pred weights mask) weights mask 1e-5 b) / bs

/-- C7: assuming the external rigid-alignment routine satisfies its
least-squares rigid-transform optimality property (here at the two relevant
calls), `mse_loss` is invariant under any rigid transform — rotation plus
translation, no scaling or reflection — applied identically to all
`gt_atoms`, because alignment to `pred_atoms` is performed before
scoring. -/
theorem c7_mse_loss_rigid_invariant {bs n : ℕ} (align : AlignFn bs n)
    (pred gt : Fin bs → Fin n → Fin 3 → ℝ) (timesteps : Fin bs → ℝ)
    (weights : Fin bs → Fin n → ℝ) (mask : Option (Fin bs → Fin n → ℝ)) (sd_data ε : ℝ)
    (R : Rigid)
    (h1 : AlignOptimal align gt pred weights mask)
    (h2 : AlignOptimal align (fun b i => R.apply (gt b i)) pred weights mask) :
    mse_loss align pred (fun b i => R.apply (gt b i)) timesteps weights mask sd_data ε =
      mse_loss align pred gt timesteps weights mask sd_data ε := by
  unfold mse_loss
  congr 1
  apply Finset.sum_congr rfl
  intro b _
  congr 1
  obtain ⟨T2, hT2, hopt2⟩ := h1 b
  obtain ⟨T1, hT1g, hopt1g⟩ := h2 b
  have hT1 : ∀ i, align (fun b i => R.apply (gt b i)) pred weights mask b i =
      T1.apply (R.apply (gt b i)) := hT1g
  have hopt1 : ∀ U : Rigid,
      alignObj pred weights mask b (fun i => T1.apply (R.apply (gt b i))) ≤
        alignObj pred weights mask b (fun i => U.apply (R.apply (gt b i))) := hopt1g
  have key : alignObj pred weights mask b
        (fun i => align (fun b i => R.apply (gt b i)) pred weights mask b i) =
      alignObj pred weights mask b (fun i => align gt pred weights mask b i) := by
    have e1 : (fun i => align (fun b i => R.apply (gt b i)) pred weights mask b i) =
        (fun i => T1.apply (R.apply (gt b i))) := funext hT1
    have e2 : (fun i => align gt pred weights mask b i) = (fun i => T2.apply (gt b i)) :=
      funext hT2
    rw [e1, e2]
    apply le_antisymm
    · have h := hopt1 (T2.comp R.inv)
      have e3 : (fun i => (T2.comp R.inv).apply (R.apply (gt b i))) =
          (fun i => T2.apply (gt b i)) := by
        funext i
        rw [Rigid.comp_apply, Rigid.inv_apply_apply]
      rw [e3] at h
      exact h
    · have h := hopt2 (T1.comp R)
      have e4 : (fun i => (T1.comp R).apply (gt b i)) =
          (fun i => T1.apply (R.apply (gt b i))) := by
        funext i
        rw [Rigid.comp_apply]
      rw [e4] at h
      exact h
  rw [mean_squared_error_as_alignObj, mean_squared_error_as_alignObj, key]

lemma sqdR_nonneg (a b : Fin 3 → ℝ) : 0 ≤ sqdR a b :=
  Finset.sum_nonneg fun c _ => sq_nonneg _

lemma alignObj_self_zero {bs n : ℕ} (pred : Fin bs → Fin n → Fin 3 → ℝ)
    (weights : Fin bs → Fin n → ℝ) (mask : Option (Fin bs → Fin n → ℝ)) (b : Fin bs) :
    alignObj pred weights mask b (fun i => pred b i) = 0 := by
  unfold alignObj sqdR
  simp

/-- Concrete inputs for the C7 witness: one batch element, one atom at the
origin. -/
def originW : Fin 1 → Fin 1 → Fin 3 → ℝ := fun _ _ _ => 0

/-- Aligner returning the reference points, optimal for a single atom. -/
def alignRefW : AlignFn 1 1 := fun _x xref _w _m => xref

def onesWeightW : Fin 1 → Fin 1 → ℝ := fun _ _ => 1

def tsW : Fin 1 → ℝ := fun _ => 1

/-- The identity as a rigid transform. -/
def rigidId : Rigid where
  A := 1
  t := 0
  orth := by rw [Matrix.transpose_one, one_mul]
  det1 := Matrix.det_one

/-- Translation by the first basis vector as a rigid transform. -/
def rigidShift : Rigid where
  A := 1
  t := fun k => if k = 0 then 1 else 0
  orth := by rw [Matrix.transpose_one, one_mul]
  det1 := Matrix.det_one

lemma alignRefW_opt_originW :
    AlignOptimal alignRefW originW originW onesWeightW none := by
  intro b
  refine ⟨rigidId, fun i => ?_, fun U => ?_⟩
  · funext c
    simp [alignRefW, originW, rigidId, Rigid.apply, Matrix.one_mulVec]
  · have hl : (fun i => rigidId.apply (originW b i)) = fun i => originW b i := by
      funext i c
      simp [rigidId, Rigid.apply, originW, Matrix.one_mulVec]
    rw [hl, alignObj_self_zero]
    refine Finset.sum_nonneg fun i _ => ?_
    refine mul_nonneg (mul_nonneg (sqdR_nonneg _ _) ?_) ?_
    · norm_num [mval]
    · norm_num [onesWeightW]

lemma alignRefW_opt_shifted :
    AlignOptimal alignRefW (fun b i => rigidShift.apply (originW b i)) originW onesWeightW
      none := by
  intro b
  refine ⟨rigidShift.inv, fun i => ?_, fun U => ?_⟩
  · have h := Rigid.inv_apply_apply rigidShift (originW b i)
    unfold alignRefW
    rw [h]
  · have hl : (fun i => rigidShift.inv.apply (rigidShift.apply (originW b i))) =
        fun i => originW b i := by
      funext i
      rw [Rigid.inv_apply_apply]
    rw [hl, alignObj_self_zero]
    refine Finset.sum_nonneg fun i _ => ?_
    refine mul_nonneg (mul_nonneg (sqdR_nonneg _ _) ?_) ?_
    · norm_num [mval]
    · norm_num [onesWeightW]

theorem c7_witness :
    mse_loss alignRefW originW (fun b i => rigidShift.apply (originW b i)) tsW onesWeightW
        none 16 1e-5 =
      mse_loss alignRefW originW originW tsW onesWeightW none 16 1e-5 :=
  c7_mse_loss_rigid_invariant alignRefW originW originW tsW onesWeightW none 16 1e-5
    rigidShift alignRefW_opt_originW alignRefW_opt_shifted

end

end AF3
